import Mathlib

/-!
Verification of the pdf-transform extraction pipeline.

The repository has two pipeline variants:
* `src/pdf_extractor.py` (variant B, "flat"): positional header/footer
  filtering by the vertical top-offset of each line.
* `src/custom_pdf_extractor.py` (variant A, "segmented"): keyword footer
  filtering, title/author detection, and a registry of titled sections.

Strings are modelled as lists of Unicode code points (`PyStr`), matching
Python `str` semantics (`len`, slicing, `in`, `split`, `strip`, `join`).
Vertical positions and page heights are modelled as rationals.
Fallible page-source calls are modelled as `Except Unit`.
-/

abbrev PyStr := List Char

/-- Convert a Lean string literal to the code-point list model. -/
def pyOf (s : String) : PyStr := s.toList

/-- The whitespace class used by Python `str.strip` and `re` `\s`
(ASCII portion; the claims never involve other whitespace). -/
def isWs (c : Char) : Bool :=
  c == ' ' || c == '\t' || c == '\n' || c == '\r' || c == '\x0b' || c == '\x0c'

/-- Python `text.split('\n')`: split on every newline, keeping empty pieces;
the split of the empty string is `[""]`. -/
def splitLines : PyStr → List PyStr
  | [] => [[]]
  | c :: cs =>
    if c = '\n' then [] :: splitLines cs
    else
      match splitLines cs with
      | [] => [[c]]
      | l :: rest => (c :: l) :: rest

/-- Python `line.strip()`: drop leading and trailing whitespace. -/
def pyStrip (s : PyStr) : PyStr :=
  (((s.dropWhile isWs).reverse).dropWhile isWs).reverse

/-- Python `needle in hay`: substring containment (the empty needle is
contained in every string). -/
def hasSub (needle : PyStr) : PyStr → Bool
  | [] => needle.isEmpty
  | c :: t => needle.isPrefixOf (c :: t) || hasSub needle t

/-- Python `sep.join(xs)`. -/
def joinWith (sep : PyStr) : List PyStr → PyStr
  | [] => []
  | [x] => x
  | x :: y :: rest => x ++ sep ++ joinWith sep (y :: rest)

/-- Streaming form of `re.sub(r'\s+', ' ', s)`: the flag records whether
the previous character belonged to a whitespace run, so that every maximal
run of whitespace emits exactly one space. -/
def reSubWsAux : Bool → PyStr → PyStr
  | _, [] => []
  | inRun, c :: cs =>
    if isWs c then
      if inRun then reSubWsAux true cs else ' ' :: reSubWsAux true cs
    else c :: reSubWsAux false cs

/-- Python `re.sub(r'\s+', ' ', s)`: replace every maximal run of
whitespace by a single space. -/
def reSubWs (s : PyStr) : PyStr := reSubWsAux false s

/-- The Normalizer: `re.sub(r'\s+', ' ', s).strip()`
(src/custom_pdf_extractor.py line 131, src/pdf_extractor.py line 83). -/
def pyNormalize (s : PyStr) : PyStr := pyStrip (reSubWs s)

/-- The fixed author-marker substring scanned for by the Title Detector. -/
def authorMarker : PyStr := pyOf "作者名"

/-- The fixed footer-keyword marker of the keyword boilerplate filter. -/
def footerMarker : PyStr := pyOf "xxx"

/-- The sentinel title for content seen before any heading. -/
def unclassifiedTitle : PyStr := pyOf "未分类内容"

/-- Result of a successful title detection. -/
structure TitleInfo where
  title : PyStr
  author_info : PyStr
deriving DecidableEq, Repr

/-- The scan `for i in range(1, len(lines))` in
`CustomPDFExtractor.detect_title` (src/custom_pdf_extractor.py lines 63-71):
the suffix argument is `lines.drop i`, so the scan visits `lines[i]` for
increasing `i`; at the first index whose line has length ≥ 4 and contains
the author marker, return the stripped space-join of the lines before it
together with that line. -/
def scanFrom (lines : List PyStr) : Nat → List PyStr → Option TitleInfo
  | _, [] => none
  | i, a :: rest =>
    if 4 ≤ a.length ∧ hasSub authorMarker a = true then
      some ⟨pyStrip (joinWith [' '] (lines.take i)), a⟩
    else scanFrom lines (i + 1) rest

/-- `CustomPDFExtractor.detect_title` on a page's raw extracted text
(src/custom_pdf_extractor.py lines 44-77, minus the exception wrapper,
which is handled at the page level): take the first 4 lines, require at
least 2, strip each and drop empties, require at least 2 again, then scan
for an author line from index 1. -/
def detect_title (text : PyStr) : Option TitleInfo :=
  if text.isEmpty then none
  else
    let lines0 := (splitLines text).take 4
    if lines0.length < 2 then none
    else
      let lines := (lines0.map pyStrip).filter (fun l => !l.isEmpty)
      if lines.length < 2 then none
      else scanFrom lines 1 (lines.drop 1)

/-- One stored section: title, author line, and the ordered page-texts
(`self.sections[title]` in src/custom_pdf_extractor.py lines 98-102). -/
structure SectionData where
  title : PyStr
  author_info : PyStr
  content : List PyStr
deriving DecidableEq, Repr

/-- The Sections registry: a Python dict modelled as an insertion-ordered
association list (keys are unique in every reachable state). -/
abbrev Registry := List (PyStr × SectionData)

/-- Dict lookup (first matching key). -/
def rlookup : Registry → PyStr → Option SectionData
  | [], _ => none
  | (k, v) :: r, t => if k = t then some v else rlookup r t

/-- In-place update of the entry at a key (first match), as Python's
`d[k]['content'].append(...)` mutates the stored dict. -/
def rupdate (f : SectionData → SectionData) : Registry → PyStr → Registry
  | [], _ => []
  | (k, v) :: r, t => if k = t then (k, f v) :: r else (k, v) :: rupdate f r t

/-- A page of the segmented pipeline: the outcome of `page.extract_text()`
(`Except.error` models a raised exception; the empty string is falsy). -/
structure PageA where
  res : Except Unit PyStr

/-- `detect_title` at the page level: a raised extraction error is caught
and yields no title (src/custom_pdf_extractor.py lines 75-77). -/
def detectTitleP (p : PageA) : Option TitleInfo :=
  match p.res with
  | .error _ => none
  | .ok text => detect_title text

/-- Mutable state of `CustomPDFExtractor.extract_text`:
the current title and the Sections registry. -/
structure ExtState where
  current_title : PyStr
  sections : Registry
deriving DecidableEq

/-- The keyword boilerplate filter loop
(src/custom_pdf_extractor.py lines 123-126): keep every line that does not
contain the footer marker. -/
def kwFilter : List PyStr → List PyStr
  | [] => []
  | l :: ls => if hasSub footerMarker l then kwFilter ls else l :: kwFilter ls

/-- Title-detection step of the page loop
(src/custom_pdf_extractor.py lines 94-103): on a detected title, switch
`current_title` to it and, only if the registry has no entry for it,
register a new section with that author info and empty content. -/
def registerTitle (st : ExtState) (p : PageA) : ExtState :=
  match detectTitleP p with
  | some ti =>
    { current_title := ti.title,
      sections :=
        if (rlookup st.sections ti.title).isSome then st.sections
        else st.sections ++ [(ti.title, ⟨ti.title, ti.author_info, []⟩)] }
  | none => st

/-- Content step of the page loop
(src/custom_pdf_extractor.py lines 109-136): extract the page text (a
raised error skips the page), keyword-filter its lines, normalize, and
append to `sections[current_title]`.  The append raises `KeyError` when
`current_title` has no entry; that exception is swallowed by the per-page
handler, so the page then contributes nothing. -/
def appendContent (st1 : ExtState) (p : PageA) : ExtState :=
  match p.res with
  | .error _ => st1
  | .ok text =>
    if text.isEmpty then st1
    else
      if (kwFilter (splitLines text)).isEmpty then st1
      else
        match rlookup st1.sections st1.current_title with
        | none => st1
        | some _ =>
          { st1 with
            sections := rupdate
              (fun sd =>
                { sd with content := sd.content ++
                    [pyNormalize (joinWith [' '] (kwFilter (splitLines text)))] })
              st1.sections st1.current_title }

/-- One iteration of the page loop of `CustomPDFExtractor.extract_text`
(src/custom_pdf_extractor.py lines 90-136): the title-detection step
followed by the content step. -/
def processPage (st : ExtState) (p : PageA) : ExtState :=
  appendContent (registerTitle st p) p

/-- Fold the page loop over the document's pages. -/
def processPages (st : ExtState) : List PageA → ExtState
  | [] => st
  | p :: ps => processPages (processPage st p) ps

/-- Initial state (src/custom_pdf_extractor.py lines 22 and 84):
`current_title` is the sentinel, the registry is the empty dict. -/
def initState : ExtState := ⟨unclassifiedTitle, []⟩

/-- Return value of `CustomPDFExtractor.extract_text` for an opened
document (src/custom_pdf_extractor.py line 142): `len(self.sections) > 0`. -/
def extractResult (pages : List PageA) : Bool :=
  decide (0 < (processPages initState pages).sections.length)

/-- The entries of the registry for which `save_to_files` writes a file
(src/custom_pdf_extractor.py lines 153-155: entries with empty `content`
are skipped). -/
def savedEntries (r : Registry) : Registry :=
  r.filter (fun kv => !kv.2.content.isEmpty)

/-- A page of the flat pipeline (variant B): page height and the
position-lookup collaborator `page.search(line)[0]['top']`
(`none` when the search finds no match). -/
structure PageB where
  height : ℚ
  topOf : PyStr → Option ℚ

/-- The positional boilerplate filter loop of `PDFExtractor.extract_text`
(src/pdf_extractor.py lines 54-78): a line is kept iff its position lookup
succeeds and the top-offset lies strictly between
`height * header_threshold` and `height * footer_threshold`. -/
def positional_filter (header_threshold footer_threshold : ℚ) (p : PageB)
    (lines : List PyStr) : List PyStr :=
  lines.filter fun line =>
    match p.topOf line with
    | some t =>
      decide (p.height * header_threshold < t) &&
        decide (t < p.height * footer_threshold)
    | none => false

/-- C7: the keyword boilerplate filter retains a line iff it does not
contain the footer marker substring anywhere, and its output is the
ordered subsequence of retained lines with input order preserved. -/
theorem c7_keyword_filter_characterization (lines : List PyStr) :
    kwFilter lines = lines.filter (fun l => !hasSub footerMarker l) ∧
    (kwFilter lines).Sublist lines ∧
    ∀ l, l ∈ kwFilter lines ↔ l ∈ lines ∧ hasSub footerMarker l = false := by
  have he : ∀ ls : List PyStr,
      kwFilter ls = ls.filter (fun l => !hasSub footerMarker l) := by
    intro ls
    induction ls with
    | nil => rfl
    | cons a t ih =>
      simp only [kwFilter, List.filter_cons]
      cases h : hasSub footerMarker a <;> simp [h, ih]
  refine ⟨he lines, ?_, ?_⟩
  · rw [he]; exact List.filter_sublist _
  · intro l
    rw [he]
    simp [List.mem_filter]

/-- C3: the positional boilerplate filter keeps order and retains a line
iff its position lookup succeeds with a top-offset strictly between
`height * header_threshold` and `height * footer_threshold`; a line whose
position cannot be found is dropped. -/
theorem c3_positional_filter_characterization (ht ft : ℚ) (p : PageB)
    (lines : List PyStr) :
    (positional_filter ht ft p lines).Sublist lines ∧
    ∀ line, line ∈ positional_filter ht ft p lines ↔
      line ∈ lines ∧ ∃ t, p.topOf line = some t ∧
        p.height * ht < t ∧ t < p.height * ft := by
  refine ⟨List.filter_sublist _, fun line => ?_⟩
  simp only [positional_filter, List.mem_filter]
  refine and_congr_right fun _ => ?_
  cases h : p.topOf line with
  | none => simp [h]
  | some t => simp [h]

/-- C4 counterexample: with page height 100 and footer threshold 8/10, a
line whose looked-up top-offset is exactly `footer_height = 80` is NOT
retained by the positional filter, refuting the claim that it is. -/
theorem c4_counterexample :
    (PageB.mk 100 (fun _ => some 80)).topOf (pyOf "L") =
      some ((PageB.mk 100 (fun _ => some 80)).height * (8 / 10)) ∧
    pyOf "L" ∉ positional_filter (2 / 10) (8 / 10)
      (PageB.mk 100 (fun _ => some 80)) [pyOf "L"] := by
  constructor
  · norm_num
  · simp only [positional_filter, List.mem_filter, List.mem_singleton]
    norm_num

/-- C4 amended: a line whose looked-up top-offset equals
`height * footer_threshold` is dropped by the positional filter (the
footer boundary is exclusive). -/
theorem c4_footer_boundary_excluded (ht ft : ℚ) (p : PageB)
    (lines : List PyStr) (line : PyStr) (t : ℚ)
    (h1 : p.topOf line = some t) (h2 : t = p.height * ft) :
    line ∉ positional_filter ht ft p lines := by
  intro hmem
  simp only [positional_filter, List.mem_filter, h1] at hmem
  obtain ⟨-, hb⟩ := hmem
  simp only [Bool.and_eq_true, decide_eq_true_eq] at hb
  rw [h2] at hb
  exact lt_irrefl _ hb.2

/-- Witness for the amended C4 at a concrete input. -/
theorem c4_witness :
    (PageB.mk 100 (fun _ => some 80)).topOf (pyOf "M") = some 80 ∧
    (80 : ℚ) = (PageB.mk 100 (fun _ => some 80)).height * (8 / 10) ∧
    pyOf "M" ∉ positional_filter (2 / 10) (8 / 10)
      (PageB.mk 100 (fun _ => some 80)) [pyOf "M"] :=
  ⟨rfl, by norm_num,
    c4_footer_boundary_excluded (2 / 10) (8 / 10) _ _ _ 80 rfl (by norm_num)⟩

/-- A single-page document whose page text is "hello world": no title is
detected on the page. -/
def helloPage : PageA := ⟨.ok (pyOf "hello world")⟩

/-- C1 (code behavior at the failing input): the registry starts empty, so
after processing a page with extractable text but no detected title, no
"unclassified" (未分类内容) section exists and the page's text was appended
nowhere — the `KeyError` raised by the append is swallowed by the per-page
handler.  This contradicts the documented fallback-section behavior. -/
theorem c1_unclassified_never_created :
    detectTitleP helloPage = none ∧
    (processPages initState [helloPage]).sections = [] ∧
    rlookup (processPages initState [helloPage]).sections unclassifiedTitle =
      none := by
  refine ⟨by decide, by decide, by decide⟩

/-- C5 counterexample: a two-page run in which page 1 detects title "Axxx"
but contributes no content (all its lines contain the footer marker), and
page 2 is a whitespace-only page whose normalized text is the blank string
`[]`.  The section's content sequence is `[[]]` — no non-blank page-text
was ever appended — yet `save_to_files` keeps the section (its content
list is non-empty), so a file IS produced, refuting the claim. -/
theorem c5_counterexample :
    (processPages initState
        [⟨.ok (pyOf "Axxx\n作者名xxx")⟩, ⟨.ok (pyOf " ")⟩]).sections =
      [(pyOf "Axxx", ⟨pyOf "Axxx", pyOf "作者名xxx", [[]]⟩)] ∧
    savedEntries (processPages initState
        [⟨.ok (pyOf "Axxx\n作者名xxx")⟩, ⟨.ok (pyOf " ")⟩]).sections =
      [(pyOf "Axxx", ⟨pyOf "Axxx", pyOf "作者名xxx", [[]]⟩)] := by
  refine ⟨by decide, by decide⟩

/-- C5 amended: `save_to_files` produces an output file for a registry
entry iff the entry's content sequence is non-empty as a list — a section
to which no page-text entry at all was appended is skipped, but a section
whose only entries are blank strings is still written. -/
theorem c5_empty_content_skipped (r : Registry) (t : PyStr)
    (sd : SectionData) :
    (t, sd) ∈ savedEntries r ↔ (t, sd) ∈ r ∧ sd.content ≠ [] := by
  simp [savedEntries, List.mem_filter]

/-- C9: a page whose text extraction raises or yields the empty string is
recovered locally — title detection returns "no title found", the page
contributes nothing to the state, and processing continues with the
remaining pages. -/
theorem c9_page_failure_recovered (st : ExtState) (p : PageA)
    (ps : List PageA)
    (h : p.res = Except.error () ∨ p.res = Except.ok []) :
    detectTitleP p = none ∧ processPage st p = st ∧
    processPages st (p :: ps) = processPages st ps := by
  have hd : detectTitleP p = none := by
    rcases h with h | h <;> simp [detectTitleP, h, detect_title]
  have hp : processPage st p = st := by
    rcases h with h | h <;>
      simp [processPage, registerTitle, appendContent, hd, h]
  exact ⟨hd, hp, by simp [processPages, hp]⟩

/-- Witness for C9 at a concrete erroring page. -/
theorem c9_witness :
    (PageA.mk (Except.error ())).res = Except.error () ∧
    (detectTitleP ⟨Except.error ()⟩ = none ∧
      processPage initState ⟨Except.error ()⟩ = initState ∧
      processPages initState [⟨Except.error ()⟩] =
        processPages initState []) :=
  ⟨rfl, c9_page_failure_recovered initState ⟨Except.error ()⟩ [] (Or.inl rfl)⟩

/-- A Boolean that is not true is false. -/
theorem bool_eq_false {b : Bool} (h : ¬(b = true)) : b = false := by
  cases hb : b
  · rfl
  · exact absurd hb h

/-- Unfolding equation: a whitespace character opens or continues a run. -/
theorem reSubWsAux_cons_ws_false {a : Char} {t : PyStr}
    (ha : isWs a = true) :
    reSubWsAux false (a :: t) = ' ' :: reSubWsAux true t := by
  simp [reSubWsAux, ha]

/-- Unfolding equation: inside a run, further whitespace is skipped. -/
theorem reSubWsAux_cons_ws_true {a : Char} {t : PyStr}
    (ha : isWs a = true) :
    reSubWsAux true (a :: t) = reSubWsAux true t := by
  simp [reSubWsAux, ha]

/-- Unfolding equation: a non-whitespace character is copied and closes
any run. -/
theorem reSubWsAux_cons_not {b : Bool} {a : Char} {t : PyStr}
    (ha : isWs a = false) :
    reSubWsAux b (a :: t) = a :: reSubWsAux false t := by
  cases b <;> simp [reSubWsAux, ha]

/-- Adjacent characters are not both whitespace. -/
def wsFree (a b : Char) : Prop := ¬(isWs a = true ∧ isWs b = true)

/-- Every whitespace character that `reSubWsAux` emits is the space. -/
theorem reSubWsAux_ws_space :
    ∀ (b : Bool) (s : PyStr), ∀ c ∈ reSubWsAux b s, isWs c = true → c = ' ' := by
  intro b s
  induction s generalizing b with
  | nil => simp [reSubWsAux]
  | cons a t ih =>
    intro c hc hw
    by_cases ha : isWs a = true
    · cases b
      · rw [reSubWsAux_cons_ws_false ha, List.mem_cons] at hc
        rcases hc with hc | hc
        · exact hc
        · exact ih true c hc hw
      · rw [reSubWsAux_cons_ws_true ha] at hc
        exact ih true c hc hw
    · rw [reSubWsAux_cons_not (bool_eq_false ha), List.mem_cons] at hc
      rcases hc with hc | hc
      · subst hc; exact absurd hw ha
      · exact ih false c hc hw

/-- After a whitespace run has been entered, the next emitted character is
not whitespace. -/
theorem reSubWsAux_true_head :
    ∀ (s : PyStr), ∀ h ∈ (reSubWsAux true s).head?, isWs h = false := by
  intro s
  induction s with
  | nil => simp [reSubWsAux]
  | cons a t ih =>
    by_cases ha : isWs a = true
    · rw [reSubWsAux_cons_ws_true ha]
      exact ih
    · rw [reSubWsAux_cons_not (bool_eq_false ha)]
      intro h hh
      rw [List.head?_cons, Option.mem_def, Option.some.injEq] at hh
      rw [← hh]
      exact bool_eq_false ha

/-- The output of `reSubWsAux` never has two adjacent whitespace
characters. -/
theorem reSubWsAux_chain :
    ∀ (b : Bool) (s : PyStr), List.Chain' wsFree (reSubWsAux b s) := by
  intro b s
  induction s generalizing b with
  | nil => simp [reSubWsAux]
  | cons a t ih =>
    by_cases ha : isWs a = true
    · cases b
      · rw [reSubWsAux_cons_ws_false ha, List.chain'_cons']
        refine ⟨fun y hy => ?_, ih true⟩
        intro hcon
        rw [reSubWsAux_true_head t y hy] at hcon
        exact Bool.false_ne_true hcon.2
      · rw [reSubWsAux_cons_ws_true ha]
        exact ih true
    · rw [reSubWsAux_cons_not (bool_eq_false ha), List.chain'_cons']
      exact ⟨fun y _ hcon => ha hcon.1, ih false⟩

/-- On a string whose head is not whitespace, the run-flag is irrelevant. -/
theorem reSubWsAux_true_eq (z : PyStr)
    (hz : ∀ h ∈ z.head?, isWs h = false) :
    reSubWsAux true z = reSubWsAux false z := by
  cases z with
  | nil => rfl
  | cons a t =>
    have ha : isWs a = false := hz a rfl
    rw [reSubWsAux_cons_not ha, reSubWsAux_cons_not ha]

/-- A string with only space as whitespace and no adjacent whitespace is a
fixed point of the whitespace collapse. -/
theorem reSubWsAux_false_fixed :
    ∀ (z : PyStr), (∀ c ∈ z, isWs c = true → c = ' ') →
    List.Chain' wsFree z → reSubWsAux false z = z := by
  intro z
  induction z with
  | nil => intro _ _; rfl
  | cons a t ih =>
    intro hA hB
    rw [List.chain'_cons'] at hB
    by_cases ha : isWs a = true
    · have haSp : a = ' ' := hA a (List.mem_cons_self a t) ha
      have ht : ∀ h ∈ t.head?, isWs h = false := by
        intro h hh
        cases hw : isWs h
        · rfl
        · exact absurd ⟨ha, hw⟩ (hB.1 h hh)
      rw [reSubWsAux_cons_ws_false ha, reSubWsAux_true_eq t ht,
        ih (fun c hc hw => hA c (List.mem_cons_of_mem a hc) hw) hB.2, haSp]
    · rw [reSubWsAux_cons_not (bool_eq_false ha),
        ih (fun c hc hw => hA c (List.mem_cons_of_mem a hc) hw) hB.2]

/-- `reSubWs` is the identity on collapsed strings. -/
theorem reSubWs_fixed (z : PyStr) (hA : ∀ c ∈ z, isWs c = true → c = ' ')
    (hB : List.Chain' wsFree z) : reSubWs z = z :=
  reSubWsAux_false_fixed z hA hB

/-- `dropWhile` leaves a list starting with a failing character unchanged. -/
theorem dropWhile_cons_self {p : Char → Bool} {c : Char} {t : PyStr}
    (hc : p c = false) : (c :: t).dropWhile p = c :: t := by
  simp [List.dropWhile_cons, hc]

/-- The head of a `dropWhile` fixed point fails the predicate. -/
theorem head_false_of_dropWhile_fixed {p : Char → Bool} {l : PyStr}
    (h : l.dropWhile p = l) :
    ∀ c t, l = c :: t → p c = false := by
  intro c t hl
  subst hl
  cases hpc : p c
  · rfl
  · exfalso
    rw [List.dropWhile_cons, if_pos hpc] at h
    have hle := List.Sublist.length_le (List.dropWhile_sublist (l := t) p)
    rw [h] at hle
    simp at hle

/-- `dropWhile` is idempotent. -/
theorem dropWhile_idem (p : Char → Bool) :
    ∀ l : PyStr, (l.dropWhile p).dropWhile p = l.dropWhile p := by
  intro l
  induction l with
  | nil => rfl
  | cons a t ih =>
    by_cases ha : p a = true
    · simp [List.dropWhile_cons, ha, ih]
    · have ha' : p a = false := bool_eq_false ha
      simp [List.dropWhile_cons, ha']

/-- Appending anything to a non-empty `dropWhile` fixed point keeps the
front fixed. -/
theorem dropWhile_append_fixed {p : Char → Bool} {l : PyStr}
    (h : l.dropWhile p = l) (hne : l ≠ []) (w : PyStr) :
    (l ++ w).dropWhile p = l ++ w := by
  cases l with
  | nil => exact absurd rfl hne
  | cons c t =>
    have hc : p c = false := head_false_of_dropWhile_fixed h c t rfl
    simp [List.dropWhile_cons, hc]

/-- The reverse of a stripped string has no leading whitespace. -/
theorem pyStrip_back_fixed (x : PyStr) :
    ((pyStrip x).reverse).dropWhile isWs = (pyStrip x).reverse := by
  unfold pyStrip
  rw [List.reverse_reverse]
  exact dropWhile_idem _ _

/-- A stripped string has no leading whitespace. -/
theorem pyStrip_front_fixed (x : PyStr) :
    (pyStrip x).dropWhile isWs = pyStrip x := by
  unfold pyStrip
  obtain ⟨w, hw⟩ :=
    List.dropWhile_suffix (l := (x.dropWhile isWs).reverse) isWs
  have hyrev : x.dropWhile isWs =
      (((x.dropWhile isWs).reverse).dropWhile isWs).reverse ++ w.reverse := by
    have h2 := congrArg List.reverse hw
    rw [List.reverse_append, List.reverse_reverse] at h2
    exact h2.symm
  cases hmr : (((x.dropWhile isWs).reverse).dropWhile isWs).reverse with
  | nil => simp [hmr]
  | cons c t =>
    have hyc : x.dropWhile isWs = c :: (t ++ w.reverse) := by
      rw [hyrev, hmr]; simp
    have hfix : (x.dropWhile isWs).dropWhile isWs = x.dropWhile isWs :=
      dropWhile_idem isWs x
    have hc : isWs c = false := head_false_of_dropWhile_fixed hfix c _ hyc
    exact dropWhile_cons_self hc

/-- A string fixed on both ends is a `pyStrip` fixed point. -/
theorem strip_fixed_point {z : PyStr} (hf : z.dropWhile isWs = z)
    (hb : (z.reverse).dropWhile isWs = z.reverse) : pyStrip z = z := by
  unfold pyStrip
  rw [hf, hb, List.reverse_reverse]

/-- `pyStrip` is idempotent. -/
theorem pyStrip_idem (x : PyStr) : pyStrip (pyStrip x) = pyStrip x :=
  strip_fixed_point (pyStrip_front_fixed x) (pyStrip_back_fixed x)

/-- Characters of a stripped string come from the original string. -/
theorem mem_of_mem_pyStrip {c : Char} {x : PyStr} (h : c ∈ pyStrip x) :
    c ∈ x := by
  unfold pyStrip at h
  rw [List.mem_reverse] at h
  have h1 := (List.dropWhile_sublist isWs).subset h
  rw [List.mem_reverse] at h1
  exact (List.dropWhile_sublist isWs).subset h1

/-- `dropWhile` preserves the no-adjacent-whitespace property. -/
theorem chain'_dropWhile {R : Char → Char → Prop} (p : Char → Bool) :
    ∀ {l : PyStr}, List.Chain' R l → List.Chain' R (l.dropWhile p) := by
  intro l h
  induction l with
  | nil => exact h
  | cons a t ih =>
    rw [List.dropWhile_cons]
    split
    · exact ih h.tail
    · exact h

/-- Reversal preserves the no-adjacent-whitespace property. -/
theorem chain'_wsFree_reverse {l : PyStr} (h : List.Chain' wsFree l) :
    List.Chain' wsFree l.reverse := by
  rw [List.chain'_reverse]
  exact h.imp fun a b hab hcon => hab ⟨hcon.2, hcon.1⟩

/-- `pyStrip` preserves the no-adjacent-whitespace property. -/
theorem chain'_pyStrip {x : PyStr} (h : List.Chain' wsFree x) :
    List.Chain' wsFree (pyStrip x) := by
  unfold pyStrip
  exact chain'_wsFree_reverse (chain'_dropWhile _
    (chain'_wsFree_reverse (chain'_dropWhile _ h)))

/-- C8: the Normalizer (collapse every whitespace run to a single space,
then trim) is idempotent — normalizing an already-normalized string
returns it unchanged. -/
theorem c8_normalizer_idempotent (s : PyStr) :
    pyNormalize (pyNormalize s) = pyNormalize s := by
  have hA : ∀ c ∈ pyStrip (reSubWs s), isWs c = true → c = ' ' :=
    fun c hc => reSubWsAux_ws_space false s c (mem_of_mem_pyStrip hc)
  have hB : List.Chain' wsFree (pyStrip (reSubWs s)) :=
    chain'_pyStrip (reSubWsAux_chain false s)
  show pyStrip (reSubWs (pyStrip (reSubWs s))) = pyStrip (reSubWs s)
  rw [reSubWs_fixed _ hA hB]
  exact pyStrip_idem _

/-- A join headed by a non-empty string is non-empty. -/
theorem joinWith_ne_nil (sep : PyStr) (y : PyStr) (rest : List PyStr)
    (hy : y ≠ []) : joinWith sep (y :: rest) ≠ [] := by
  cases rest with
  | nil => exact hy
  | cons z r =>
    exact List.append_ne_nil_of_left_ne_nil
      (List.append_ne_nil_of_left_ne_nil hy sep) _

/-- A join of strings without leading whitespace has no leading
whitespace. -/
theorem joinWith_front_fixed (sep : PyStr) (ls : List PyStr)
    (h : ∀ l ∈ ls, l.dropWhile isWs = l ∧ l ≠ []) :
    (joinWith sep ls).dropWhile isWs = joinWith sep ls := by
  cases ls with
  | nil => rfl
  | cons x t =>
    cases t with
    | nil => exact (h x (List.mem_singleton_self x)).1
    | cons y r =>
      show ((x ++ sep) ++ joinWith sep (y :: r)).dropWhile isWs =
        (x ++ sep) ++ joinWith sep (y :: r)
      rw [List.append_assoc]
      exact dropWhile_append_fixed (h x (List.mem_cons_self x _)).1
        (h x (List.mem_cons_self x _)).2 _

/-- A join of strings without trailing whitespace has no trailing
whitespace. -/
theorem joinWith_back_fixed (sep : PyStr) :
    ∀ ls : List PyStr,
    (∀ l ∈ ls, (l.reverse).dropWhile isWs = l.reverse ∧ l ≠ []) →
    ((joinWith sep ls).reverse).dropWhile isWs = (joinWith sep ls).reverse := by
  intro ls
  induction ls with
  | nil => intro _; rfl
  | cons x t ih =>
    intro h
    cases t with
    | nil => exact (h x (List.mem_singleton_self x)).1
    | cons y r =>
      show (((x ++ sep) ++ joinWith sep (y :: r)).reverse).dropWhile isWs =
        ((x ++ sep) ++ joinWith sep (y :: r)).reverse
      rw [List.reverse_append]
      have hJ := ih (fun l hl => h l (List.mem_cons_of_mem x hl))
      have hyne : y ≠ [] :=
        (h y (List.mem_cons_of_mem x (List.mem_cons_self y r))).2
      have hJne : (joinWith sep (y :: r)).reverse ≠ [] := by
        simpa using joinWith_ne_nil sep y r hyne
      exact dropWhile_append_fixed hJ hJne _

/-- Stripping is the identity on a space-join of stripped non-empty
strings. -/
theorem pyStrip_joinWith (ls : List PyStr)
    (h : ∀ l ∈ ls, ∃ x, l = pyStrip x ∧ l ≠ []) :
    pyStrip (joinWith [' '] ls) = joinWith [' '] ls := by
  have hf : ∀ l ∈ ls, l.dropWhile isWs = l ∧ l ≠ [] := by
    intro l hl
    obtain ⟨x, hx, hne⟩ := h l hl
    subst hx
    exact ⟨pyStrip_front_fixed x, hne⟩
  have hb : ∀ l ∈ ls, (l.reverse).dropWhile isWs = l.reverse ∧ l ≠ [] := by
    intro l hl
    obtain ⟨x, hx, hne⟩ := h l hl
    subst hx
    exact ⟨pyStrip_back_fixed x, hne⟩
  exact strip_fixed_point (joinWith_front_fixed _ _ hf)
    (joinWith_back_fixed _ _ hb)

/-- Modelled from the claim wording of C2: scan the remaining lines for
the first author line (length ≥ 4 and containing the author marker),
keeping the lines already passed; on success the title is the space-join
of the passed lines (no extra strip) and the author info is that line. -/
def specScan (done : List PyStr) : List PyStr → Option TitleInfo
  | [] => none
  | a :: rest =>
    if 4 ≤ a.length ∧ hasSub authorMarker a = true then
      some ⟨joinWith [' '] done, a⟩
    else specScan (done ++ [a]) rest

/-- Modelled from the claim wording of C2: split the raw text into lines,
take at most the first 4, strip each and drop empties; return a pair
exactly when at least 2 non-empty lines remain and some index i ≥ 1 is an
author line, the scan choosing the first such i. -/
def detectTitleSpec (text : PyStr) : Option TitleInfo :=
  match (((splitLines text).take 4).map pyStrip).filter (fun l => !l.isEmpty) with
  | l0 :: l1 :: rest => specScan [l0] (l1 :: rest)
  | _ => none

/-- The indexed scan of the source equals the accumulator scan of the
spec on cleaned lines. -/
theorem scanFrom_eq_specScan (lines : List PyStr)
    (good : ∀ l ∈ lines, ∃ x, l = pyStrip x ∧ l ≠ []) :
    ∀ (rest : List PyStr) (i : Nat), lines.drop i = rest →
      scanFrom lines i rest = specScan (lines.take i) rest := by
  intro rest
  induction rest with
  | nil => intro i _; rfl
  | cons a r ih =>
    intro i hdrop
    have hget : lines[i]? = some a := by
      rw [← List.head?_drop, hdrop]; rfl
    have htake : lines.take (i + 1) = lines.take i ++ [a] := by
      rw [List.take_succ, hget]; rfl
    have hdrop1 : lines.drop (i + 1) = r := by
      rw [← List.tail_drop, hdrop]
      rfl
    by_cases hcond : 4 ≤ a.length ∧ hasSub authorMarker a = true
    · have hstrip : pyStrip (joinWith [' '] (lines.take i)) =
          joinWith [' '] (lines.take i) :=
        pyStrip_joinWith _ (fun l hl => good l (List.take_subset i lines hl))
      simp only [scanFrom, specScan]
      rw [if_pos hcond, if_pos hcond, hstrip]
    · simp only [scanFrom, specScan]
      rw [if_neg hcond, if_neg hcond, ← htake]
      exact ih (i + 1) hdrop1

/-- The branch structure of `detect_title` past the emptiness check equals
the spec-side match: the raw pre-strip length check is subsumed by the
post-clean one, and the extra strip of the joined title is a no-op. -/
theorem detect_core_eq (lines0 : List PyStr) :
    (if lines0.length < 2 then none
     else if ((lines0.map pyStrip).filter (fun l => !l.isEmpty)).length < 2
       then none
     else scanFrom ((lines0.map pyStrip).filter (fun l => !l.isEmpty)) 1
       (((lines0.map pyStrip).filter (fun l => !l.isEmpty)).drop 1)) =
    (match (lines0.map pyStrip).filter (fun l => !l.isEmpty) with
     | l0 :: l1 :: rest => specScan [l0] (l1 :: rest)
     | _ => (none : Option TitleInfo)) := by
  obtain ⟨L, hLdef⟩ :
      ∃ L, (lines0.map pyStrip).filter (fun l => !l.isEmpty) = L := ⟨_, rfl⟩
  have hgood : ∀ l ∈ L, ∃ x, l = pyStrip x ∧ l ≠ [] := by
    intro l hl
    rw [← hLdef, List.mem_filter] at hl
    obtain ⟨hm, hne⟩ := hl
    obtain ⟨x, _, hx⟩ := List.mem_map.mp hm
    refine ⟨x, hx.symm, ?_⟩
    simpa using hne
  have hle : L.length ≤ lines0.length := by
    rw [← hLdef]
    calc ((lines0.map pyStrip).filter (fun l => !l.isEmpty)).length
        ≤ (lines0.map pyStrip).length := List.length_filter_le _ _
      _ = lines0.length := List.length_map _ _
  rw [hLdef]
  by_cases h0 : lines0.length < 2
  · rw [if_pos h0]
    have h2 : L.length < 2 := lt_of_le_of_lt hle h0
    cases L with
    | nil => rfl
    | cons l0 t =>
      cases t with
      | nil => rfl
      | cons l1 r =>
        simp only [List.length_cons] at h2
        omega
  · rw [if_neg h0]
    by_cases h1 : L.length < 2
    · rw [if_pos h1]
      cases L with
      | nil => rfl
      | cons l0 t =>
        cases t with
        | nil => rfl
        | cons l1 r =>
          simp only [List.length_cons] at h1
          omega
    · rw [if_neg h1]
      cases L with
      | nil => exact absurd (by norm_num) h1
      | cons l0 t =>
        cases t with
        | nil => exact absurd (by norm_num) h1
        | cons l1 rest =>
          exact scanFrom_eq_specScan (l0 :: l1 :: rest) hgood (l1 :: rest) 1 rfl

/-- C2: the Title Detector of the source equals the detector described by
the claim — on the first 4 raw lines, stripped with empties dropped, it
succeeds exactly when at least 2 non-empty lines remain and some index
i ≥ 1 holds a line of length ≥ 4 containing the author marker; at the
first such i it returns the space-join of lines [0..i) as title and line
i as author info, and otherwise no title. -/
theorem c2_detect_title_matches_spec (text : PyStr) :
    detect_title text = detectTitleSpec text := by
  by_cases hempty : text.isEmpty = true
  · have ht : text = [] := List.isEmpty_iff.mp hempty
    subst ht
    rfl
  · show (if text.isEmpty = true then none
      else if ((splitLines text).take 4).length < 2 then none
      else if ((((splitLines text).take 4).map pyStrip).filter
          (fun l => !l.isEmpty)).length < 2 then none
      else scanFrom ((((splitLines text).take 4).map pyStrip).filter
          (fun l => !l.isEmpty)) 1
        (((((splitLines text).take 4).map pyStrip).filter
          (fun l => !l.isEmpty)).drop 1)) = detectTitleSpec text
    rw [if_neg hempty]
    exact detect_core_eq ((splitLines text).take 4)

/-- Appending a new entry at the end does not disturb an existing lookup. -/
theorem rlookup_append (r : Registry) (k : PyStr) (v : SectionData)
    (t : PyStr) (sd : SectionData) (h : rlookup r t = some sd) :
    rlookup (r ++ [(k, v)]) t = some sd := by
  induction r with
  | nil => simp [rlookup] at h
  | cons kv rest ih =>
    obtain ⟨k', v'⟩ := kv
    rw [List.cons_append, rlookup]
    rw [rlookup] at h
    by_cases hk : k' = t
    · rw [if_pos hk] at h ⊢
      exact h
    · rw [if_neg hk] at h ⊢
      exact ih h

/-- Lookup after an in-place update at a (possibly different) key. -/
theorem rlookup_rupdate (f : SectionData → SectionData) (r : Registry)
    (c t : PyStr) :
    rlookup (rupdate f r c) t =
      if c = t then (rlookup r t).map f else rlookup r t := by
  induction r with
  | nil => simp [rlookup, rupdate]
  | cons kv rest ih =>
    obtain ⟨k, v⟩ := kv
    by_cases hk : k = c
    · rw [rupdate, if_pos hk]
      by_cases hkt : k = t
      · have hct : c = t := by rw [← hk, hkt]
        simp [rlookup, hkt, hct]
      · have hct : ¬(c = t) := by rw [← hk]; exact hkt
        simp [rlookup, hkt, hct]
    · rw [rupdate, if_neg hk]
      by_cases hkt : k = t
      · have hct : ¬(c = t) := fun hc => hk (hkt.trans hc.symm)
        simp [rlookup, hkt, hct]
      · simp [rlookup, hkt, ih]

/-- An in-place update does not change the key sequence. -/
theorem rupdate_map_fst (f : SectionData → SectionData) (r : Registry)
    (c : PyStr) : (rupdate f r c).map Prod.fst = r.map Prod.fst := by
  induction r with
  | nil => rfl
  | cons kv rest ih =>
    obtain ⟨k, v⟩ := kv
    by_cases hk : k = c <;> simp [rupdate, hk, ih]

/-- A lookup fails exactly when the key is absent. -/
theorem rlookup_eq_none_iff (r : Registry) (t : PyStr) :
    rlookup r t = none ↔ t ∉ r.map Prod.fst := by
  induction r with
  | nil => simp [rlookup]
  | cons kv rest ih =>
    obtain ⟨k, v⟩ := kv
    by_cases hk : k = t
    · rw [rlookup, if_pos hk]
      simp only [List.map_cons, List.mem_cons]
      constructor
      · intro hn
        exact absurd hn (Option.some_ne_none v)
      · intro hn
        exact absurd (Or.inl hk.symm) hn
    · simp only [rlookup, if_neg hk, List.map_cons, List.mem_cons, ih]
      constructor
      · intro hn hc
        rcases hc with hc | hc
        · exact hk hc.symm
        · exact hn hc
      · intro hn hc
        exact hn (Or.inr hc)

/-- The title-detection step never disturbs an existing lookup. -/
theorem registerTitle_lookup (st : ExtState) (p : PageA) (t : PyStr)
    (sd : SectionData) (h : rlookup st.sections t = some sd) :
    rlookup (registerTitle st p).sections t = some sd := by
  unfold registerTitle
  cases detectTitleP p with
  | none => exact h
  | some ti =>
    dsimp only
    by_cases hx : (rlookup st.sections ti.title).isSome
    · rw [if_pos hx]
      exact h
    · rw [if_neg hx]
      exact rlookup_append _ _ _ _ _ h

/-- The content step preserves an existing section's title and author
info, and can only append to its content. -/
theorem appendContent_lookup (st1 : ExtState) (p : PageA) (t : PyStr)
    (sd : SectionData) (h : rlookup st1.sections t = some sd) :
    ∃ sd', rlookup (appendContent st1 p).sections t = some sd' ∧
      sd'.title = sd.title ∧ sd'.author_info = sd.author_info ∧
      sd.content <+: sd'.content := by
  unfold appendContent
  cases p.res with
  | error e => exact ⟨sd, h, rfl, rfl, List.prefix_refl _⟩
  | ok text =>
    dsimp only
    by_cases htxt : text.isEmpty
    · rw [if_pos htxt]
      exact ⟨sd, h, rfl, rfl, List.prefix_refl _⟩
    · rw [if_neg htxt]
      by_cases hfil : (kwFilter (splitLines text)).isEmpty
      · rw [if_pos hfil]
        exact ⟨sd, h, rfl, rfl, List.prefix_refl _⟩
      · rw [if_neg hfil]
        cases rlookup st1.sections st1.current_title with
        | none => exact ⟨sd, h, rfl, rfl, List.prefix_refl _⟩
        | some sdc =>
          by_cases hct : st1.current_title = t
          · refine ⟨{ sd with content := sd.content ++
                [pyNormalize (joinWith [' '] (kwFilter (splitLines text)))] },
              ?_, rfl, rfl, List.prefix_append _ _⟩
            show rlookup (rupdate _ st1.sections st1.current_title) t = _
            rw [rlookup_rupdate, if_pos hct, h]
            rfl
          · refine ⟨sd, ?_, rfl, rfl, List.prefix_refl _⟩
            show rlookup (rupdate _ st1.sections st1.current_title) t = _
            rw [rlookup_rupdate, if_neg hct]
            exact h

/-- The content step never changes the key sequence of the registry. -/
theorem appendContent_map_fst (st1 : ExtState) (p : PageA) :
    (appendContent st1 p).sections.map Prod.fst =
      st1.sections.map Prod.fst := by
  unfold appendContent
  cases p.res with
  | error _ => rfl
  | ok text =>
    dsimp only
    by_cases htxt : text.isEmpty
    · rw [if_pos htxt]
    · rw [if_neg htxt]
      by_cases hfil : (kwFilter (splitLines text)).isEmpty
      · rw [if_pos hfil]
      · rw [if_neg hfil]
        cases rlookup st1.sections st1.current_title with
        | none => rfl
        | some sdc => exact rupdate_map_fst _ _ _

/-- The title-detection step keeps the keys of the registry distinct. -/
theorem registerTitle_keys_nodup (st : ExtState) (p : PageA)
    (h : (st.sections.map Prod.fst).Nodup) :
    ((registerTitle st p).sections.map Prod.fst).Nodup := by
  unfold registerTitle
  cases detectTitleP p with
  | none => exact h
  | some ti =>
    dsimp only
    by_cases hx : (rlookup st.sections ti.title).isSome
    · rw [if_pos hx]
      exact h
    · rw [if_neg hx]
      have hnot : ti.title ∉ st.sections.map Prod.fst := by
        rw [← rlookup_eq_none_iff]
        cases hc : rlookup st.sections ti.title with
        | none => rfl
        | some sdc => exact absurd (hc ▸ rfl) hx
      rw [List.map_append]
      rw [List.nodup_append]
      refine ⟨h, List.nodup_singleton _, ?_⟩
      intro a ha hb
      simp only [List.map_cons, List.map_nil, List.mem_singleton] at hb
      subst hb
      exact hnot ha

/-- Over any run, an existing section keeps its title and author info, and
its content is only ever extended at the end. -/
theorem processPages_lookup_mono (ps : List PageA) :
    ∀ (st : ExtState) (t : PyStr) (sd : SectionData),
    rlookup st.sections t = some sd →
    ∃ sd', rlookup (processPages st ps).sections t = some sd' ∧
      sd'.title = sd.title ∧ sd'.author_info = sd.author_info ∧
      sd.content <+: sd'.content := by
  induction ps with
  | nil =>
    intro st t sd h
    exact ⟨sd, h, rfl, rfl, List.prefix_refl _⟩
  | cons p ps ih =>
    intro st t sd h
    have h1 := registerTitle_lookup st p t sd h
    obtain ⟨sd1, hl1, ht1, ha1, hp1⟩ :=
      appendContent_lookup (registerTitle st p) p t sd h1
    obtain ⟨sd2, hl2, ht2, ha2, hp2⟩ := ih (processPage st p) t sd1 hl1
    exact ⟨sd2, hl2, ht2.trans ht1, ha2.trans ha1, hp1.trans hp2⟩

/-- Over any run, the registry's keys stay distinct. -/
theorem processPages_keys_nodup (ps : List PageA) :
    ∀ st : ExtState, (st.sections.map Prod.fst).Nodup →
    ((processPages st ps).sections.map Prod.fst).Nodup := by
  induction ps with
  | nil => intro st h; exact h
  | cons p ps ih =>
    intro st h
    apply ih
    show ((appendContent (registerTitle st p) p).sections.map Prod.fst).Nodup
    rw [appendContent_map_fst]
    exact registerTitle_keys_nodup st p h
/-- C6: once a title is registered with an author line, processing any
further pages keeps a single registry entry for it: the keys stay
distinct, the stored author info and title are never overwritten, and the
content sequence is only appended to, preserving document-page order.
Moreover, a page that detects this same title again and has retained text
appends exactly its normalized page-text at the end of the section's
content sequence. -/
theorem c6_section_accumulator_invariant (st : ExtState) (ps : List PageA)
    (t : PyStr) (sd : SectionData)
    (h : rlookup st.sections t = some sd) :
    (∃ sd', rlookup (processPages st ps).sections t = some sd' ∧
      sd'.title = sd.title ∧ sd'.author_info = sd.author_info ∧
      sd.content <+: sd'.content) ∧
    ((st.sections.map Prod.fst).Nodup →
      ((processPages st ps).sections.map Prod.fst).Nodup) ∧
    (∀ (p : PageA) (text : PyStr) (ti : TitleInfo),
      p.res = Except.ok text → detectTitleP p = some ti → ti.title = t →
      (kwFilter (splitLines text)).isEmpty = false →
      rlookup (processPage st p).sections t =
        some { sd with content := sd.content ++
          [pyNormalize (joinWith [' '] (kwFilter (splitLines text)))] }) := by
  refine ⟨processPages_lookup_mono ps st t sd h,
    fun hn => processPages_keys_nodup ps st hn, ?_⟩
  intro p text ti hres hdet hti hfil
  have h0 : rlookup st.sections ti.title = some sd := by
    rw [hti]
    exact h
  have hreg : registerTitle st p = ⟨ti.title, st.sections⟩ := by
    unfold registerTitle
    rw [hdet]
    simp [h0]
  have htxt : text.isEmpty = false := by
    cases hie : text.isEmpty
    · rfl
    · exfalso
      have hnil : text = [] := List.isEmpty_iff.mp hie
      subst hnil
      unfold detectTitleP at hdet
      rw [hres] at hdet
      simp [detect_title] at hdet
  show rlookup (appendContent (registerTitle st p) p).sections t = _
  rw [hreg]
  unfold appendContent
  rw [hres]
  dsimp only
  rw [if_neg (by rw [htxt]; exact Bool.false_ne_true)]
  rw [if_neg (by rw [hfil]; exact Bool.false_ne_true)]
  show rlookup
      (match rlookup st.sections ti.title with
        | none => (⟨ti.title, st.sections⟩ : ExtState)
        | some _ =>
          { current_title := ti.title,
            sections := rupdate
              (fun sd => { sd with content := sd.content ++
                [pyNormalize (joinWith [' '] (kwFilter (splitLines text)))] })
              st.sections ti.title }).sections t = _
  rw [h0]
  show rlookup (rupdate _ st.sections ti.title) t = _
  rw [rlookup_rupdate, if_pos hti, h]
  rfl

/-- A state with one registered section, for the C6 witness. -/
def c6State : ExtState :=
  ⟨pyOf "T", [(pyOf "T", ⟨pyOf "T", pyOf "A", [pyOf "one"]⟩)]⟩

/-- A later page that detects the same title "T" again, for the C6
witness. -/
def c6Page : PageA := ⟨.ok (pyOf "T\n作者名x\nmore")⟩

/-- Witness for C6 at a concrete run in which the same title is detected
again on a later page: the author info survives and the page's normalized
text is appended after the existing content. -/
theorem c6_witness :
    rlookup c6State.sections (pyOf "T") =
      some ⟨pyOf "T", pyOf "A", [pyOf "one"]⟩ ∧
    c6Page.res = Except.ok (pyOf "T\n作者名x\nmore") ∧
    detectTitleP c6Page = some ⟨pyOf "T", pyOf "作者名x"⟩ ∧
    (kwFilter (splitLines (pyOf "T\n作者名x\nmore"))).isEmpty = false ∧
    (∃ sd', rlookup (processPages c6State [c6Page]).sections (pyOf "T") =
        some sd' ∧
      sd'.title = (⟨pyOf "T", pyOf "A", [pyOf "one"]⟩ : SectionData).title ∧
      sd'.author_info =
        (⟨pyOf "T", pyOf "A", [pyOf "one"]⟩ : SectionData).author_info ∧
      (⟨pyOf "T", pyOf "A", [pyOf "one"]⟩ : SectionData).content <+:
        sd'.content) ∧
    rlookup (processPage c6State c6Page).sections (pyOf "T") =
      some ⟨pyOf "T", pyOf "A", [pyOf "one",
        pyNormalize (joinWith [' ']
          (kwFilter (splitLines (pyOf "T\n作者名x\nmore"))))]⟩ := by
  have hmain := c6_section_accumulator_invariant c6State [c6Page]
    (pyOf "T") ⟨pyOf "T", pyOf "A", [pyOf "one"]⟩ (by decide)
  refine ⟨by decide, rfl, by decide, by decide, hmain.1, ?_⟩
  exact hmain.2.2 c6Page (pyOf "T\n作者名x\nmore") ⟨pyOf "T", pyOf "作者名x"⟩
    rfl (by decide) (by decide) (by decide)

/-- The content step cannot change whether the registry is empty. -/
theorem appendContent_sections_nil_iff (st1 : ExtState) (p : PageA) :
    ((appendContent st1 p).sections = [] ↔ st1.sections = []) := by
  have hm := appendContent_map_fst st1 p
  constructor
  · intro h
    have h2 : st1.sections.map Prod.fst = [] := by
      rw [← hm, h]
      rfl
    exact List.map_eq_nil_iff.mp h2
  · intro h
    have h2 : (appendContent st1 p).sections.map Prod.fst = [] := by
      rw [hm, h]
      rfl
    exact List.map_eq_nil_iff.mp h2

/-- The registry is empty after the title-detection step iff it was empty
before and no title was detected. -/
theorem registerTitle_sections_nil_iff (st : ExtState) (p : PageA) :
    ((registerTitle st p).sections = [] ↔
      st.sections = [] ∧ detectTitleP p = none) := by
  unfold registerTitle
  cases hdet : detectTitleP p with
  | none => simp
  | some ti =>
    dsimp only
    by_cases hx : (rlookup st.sections ti.title).isSome
    · rw [if_pos hx]
      constructor
      · intro h
        rw [h] at hx
        simp [rlookup] at hx
      · intro h
        exact absurd h.2 (by simp)
    · rw [if_neg hx]
      constructor
      · intro h
        exact absurd h
          (List.append_ne_nil_of_right_ne_nil _ (List.cons_ne_nil _ _))
      · intro h
        exact absurd h.2 (by simp)

/-- The registry is empty after a whole run iff it started empty and no
page's title detection succeeded. -/
theorem processPages_sections_nil_iff (ps : List PageA) :
    ∀ st : ExtState, ((processPages st ps).sections = [] ↔
      st.sections = [] ∧ ∀ p ∈ ps, detectTitleP p = none) := by
  induction ps with
  | nil =>
    intro st
    simp [processPages]
  | cons p ps ih =>
    intro st
    show ((processPages (processPage st p) ps).sections = [] ↔ _)
    rw [ih]
    have hpp : ((processPage st p).sections = [] ↔
        st.sections = [] ∧ detectTitleP p = none) :=
      (appendContent_sections_nil_iff (registerTitle st p) p).trans
        (registerTitle_sections_nil_iff st p)
    rw [hpp]
    constructor
    · rintro ⟨⟨h1, h2⟩, h3⟩
      refine ⟨h1, fun q hq => ?_⟩
      rcases List.mem_cons.mp hq with hq | hq
      · exact hq ▸ h2
      · exact h3 q hq
    · rintro ⟨h1, h2⟩
      exact ⟨⟨h1, h2 p (List.mem_cons_self p ps)⟩,
        fun q hq => h2 q (List.mem_cons_of_mem p hq)⟩

/-- C10: for an opened document, `extract_text` reports success iff the
registry is non-empty at the end, equivalently iff at least one page's
title detection succeeded; whether any page-text was accumulated has no
effect, so a readable document with extractable text but no page matching
the title/author pattern reports overall failure. -/
theorem c10_success_iff_title_detected (pages : List PageA) :
    (extractResult pages = true ↔
      (processPages initState pages).sections ≠ []) ∧
    (extractResult pages = true ↔
      ∃ p ∈ pages, (detectTitleP p).isSome = true) := by
  have h1 : extractResult pages = true ↔
      (processPages initState pages).sections ≠ [] := by
    unfold extractResult
    rw [decide_eq_true_iff]
    exact List.length_pos
  refine ⟨h1, h1.trans ?_⟩
  rw [Ne, processPages_sections_nil_iff]
  have hinit : initState.sections = [] := rfl
  simp only [hinit, true_and]
  constructor
  · intro h
    by_contra hcon
    push_neg at hcon
    apply h
    intro p hp
    have hps := hcon p hp
    cases hd : detectTitleP p with
    | none => rfl
    | some ti =>
      rw [hd] at hps
      simp at hps
  · rintro ⟨p, hp, hsome⟩ hall
    rw [hall p hp] at hsome
    simp at hsome
